import Mathlib

/-!
Shallow embedding of shinysdr/types.py: the value-type hierarchy
(BareType, Constant, Enum, Range, Notice, BulkDataType) with the Range
variant's quantization, subrange-selection and clamping algorithm.

Numbers are modelled by the rationals: every Python float is an exact
rational and the source's arithmetic on them (comparison, rounding,
addition) is exact arithmetic on those rationals.  Fallible operations
(list indexing, the math.log domain check, strict Enum membership)
return Option or Except, with none / error standing for the raised
Python exception.
-/

namespace ShinySDR

/-- The two exception kinds the source raises from coercion:
TypeError (a specimen whose kind cannot be converted at all) and
ValueError (a converted specimen rejected by a strict membership rule). -/
inductive CoerceErr
  | typeError
  | valueError
  deriving DecidableEq, Repr

/-- A JSON-like document, the shape of what type_to_json returns:
the source builds Python dicts, lists, strings, numbers, bools and None. -/
inductive JsonV
  | str (s : String)
  | num (q : ℚ)
  | bool (b : Bool)
  | null
  | arr (xs : List JsonV)
  | obj (fields : List (String × JsonV))

/-- Field-name list of a JSON object; none when the document is not an
object at all (a bare string or number carries no fields). -/
def JsonV.fieldNames : JsonV → Option (List String)
  | .obj fields => some (fields.map Prod.fst)
  | _ => none

/-- Look a field up in a JSON object; none when absent or not an object. -/
def JsonV.lookupField (j : JsonV) (k : String) : Option JsonV :=
  match j with
  | .obj fields => (fields.find? fun p => p.1 = k).map Prod.snd
  | _ => none

/-- The Python types a BareType may wrap (bool is the only one the
serializer distinguishes). -/
inductive PyType
  | bool
  | int
  | float
  | unicode
  deriving DecidableEq

/-- BareType: ValueType wrapper for Python types. -/
structure BareType where
  python_type : PyType

/-- BareType.type_to_json: the bare tag string for bool, None otherwise. -/
def BareType.type_to_json (t : BareType) : JsonV :=
  if t.python_type = PyType.bool then .str "boolean" else .null

/-- Constant: a single-valued type. -/
structure Constant (α : Type) where
  value : α

/-- Constant.type_to_json; toJson serializes the stored Python value into
the emitted document (the source embeds the object into the dict verbatim). -/
def Constant.type_to_json (toJson : α → JsonV) (c : Constant α) : JsonV :=
  .obj [("type", .str "constant"), ("value", toJson c.value)]

/-- Enum: values maps each permitted value to its description; strict
decides whether non-members are rejected; base_type is the conversion
applied to the specimen first (it may itself raise, e.g. TypeError). -/
structure Enum (β α : Type) where
  values : List (α × String)
  strict : Bool
  base_type : β → Except CoerceErr α

/-- Enum.__call__: convert the specimen with base_type, then raise
ValueError when strict and the converted value is not a key of values. -/
def Enum.coerce [DecidableEq α] (e : Enum β α) (specimen : β) : Except CoerceErr α := do
  let s ← e.base_type specimen
  if s ∉ e.values.map Prod.fst ∧ e.strict = true then
    .error CoerceErr.valueError
  else
    pure s

/-- Enum.type_to_json for string-keyed enums (the dict keys must be
strings to serialize; the source's default base_type is unicode). -/
def Enum.type_to_json (e : Enum β String) : JsonV :=
  .obj [("type", .str "enum"),
        ("values", .obj (e.values.map fun p => (p.1, .str p.2)))]

/-- Range: stores the subrange list it was constructed from (the source
destructures it into the parallel lists __mins and __maxes). -/
structure Range where
  subranges : List (ℚ × ℚ)
  strict : Bool := true
  logarithmic : Bool := false
  integer : Bool := false

/-- The source's __mins list: the first component of every subrange. -/
def Range.mins (r : Range) : List ℚ := r.subranges.map Prod.fst

/-- The source's __maxes list: the second component of every subrange. -/
def Range.maxes (r : Range) : List ℚ := r.subranges.map Prod.snd

/-- Range.type_to_json: the dict with type, subranges, logarithmic, integer. -/
def Range.type_to_json (r : Range) : JsonV :=
  .obj [("type", .str "range"),
        ("subranges", .arr (r.subranges.map fun p => .arr [.num p.1, .num p.2])),
        ("logarithmic", .bool r.logarithmic),
        ("integer", .bool r.integer)]

/-- Python 2's round() at integer precision: round half away from zero
(int() then truncates, a no-op on an integral value), so
int(round(s)) is floor(s + 1/2) for s ≥ 0 and ceil(s - 1/2) for s < 0. -/
def pyRound (s : ℚ) : ℤ :=
  if 0 ≤ s then ⌊s + 1 / 2⌋ else ⌈s - 1 / 2⌉

/-- int(round(math.log(s, 2))) for s > 0, exactly: the integer nearest to
log2 s.  n = round(log2 s) is characterized by 2 ^ (2n - 1) ≤ s ^ 2 < 2 ^ (2n + 1)
(i.e. n - 1/2 ≤ log2 s < n + 1/2; log2 of a positive rational is never
exactly a half-integer, so the tie direction of round never matters), and
that n is computed from the floor logarithm of s ^ 2.
The lemma roundLog2_unique below proves the characterization. -/
def roundLog2 (s : ℚ) : ℤ :=
  (Int.log 2 (s ^ 2) + 1) / 2

/-- The loop of Python's bisect.bisect_right: binary search for the
insertion point keeping everything ≤ x on the left.  Fuel-structured so
it computes by kernel reduction; fuel ≥ hi - lo makes the 0 case dead
(the interval shrinks strictly every iteration).  mid is always a valid
index (lo ≤ mid < hi ≤ length), so the getD default is never consulted. -/
def bisectLoop : ℕ → List ℚ → ℚ → ℕ → ℕ → ℕ
  | 0, _, _, lo, _ => lo
  | fuel + 1, a, x, lo, hi =>
    if lo < hi then
      if x < a.getD ((lo + hi) / 2) 0 then bisectLoop fuel a x lo ((lo + hi) / 2)
      else bisectLoop fuel a x ((lo + hi) / 2 + 1) hi
    else lo

/-- bisect.bisect_right(a, x): the number of leading elements ≤ x when a
is sorted. -/
def pyBisectRight (a : List ℚ) (x : ℚ) : ℕ :=
  bisectLoop a.length a x 0 a.length

/-- The index computed before the tie-break: bisect.bisect_right - 1,
clamped below at 0 (Nat subtraction performs the clamp the source writes
as if i < 0: i = 0). -/
def bisectIdx (mins : List ℚ) (s : ℚ) : ℕ :=
  pyBisectRight mins s - 1

/-- The subrange index the strict branch chooses: advance to i + 1 when a
next subrange exists and mins[i + 1] - specimen < specimen - maxes[i]
(round to the nearest range instead of the lower one); none models an
IndexError on the maxes[i] access. -/
def chosenIdx (mins maxes : List ℚ) (s : ℚ) : Option ℕ :=
  if bisectIdx mins s + 1 < mins.length then do
    let m1 ← mins[bisectIdx mins s + 1]?
    let mx ← maxes[bisectIdx mins s]?
    pure (if m1 - s < s - mx then bisectIdx mins s + 1 else bisectIdx mins s)
  else
    pure (bisectIdx mins s)

/-- Clamp to the chosen range: if specimen < mins[i] take mins[i], elif
specimen > maxes[i] take maxes[i] (the elif touches maxes[i] only when
the first test fails, as the source does); none models an IndexError. -/
def clampTo (mins maxes : List ℚ) (i : ℕ) (s : ℚ) : Option ℚ := do
  let mn ← mins[i]?
  if s < mn then
    pure mn
  else do
    let mx ← maxes[i]?
    pure (if mx < s then mx else s)

/-- The whole strict branch of Range.__call__: selection then clamp. -/
def strictStep (mins maxes : List ℚ) (s : ℚ) : Option ℚ := do
  let i ← chosenIdx mins maxes s
  clampTo mins maxes i s

/-- The quantization step of Range.__call__ (the if self.__integer block):
logarithmic snaps to the power of two nearest in log2, after replacing a
non-positive specimen by __mins[0] (none models the IndexError on an
empty list and the math.log domain ValueError when the value the
logarithm is taken of is still non-positive); non-logarithmic rounds to
the nearest integer. -/
def Range.quantize (r : Range) (s : ℚ) : Option ℚ :=
  if r.integer = true then
    if r.logarithmic = true then do
      let s1 ← if s ≤ 0 then r.mins.head? else pure s
      if 0 < s1 then pure ((2 : ℚ) ^ roundLog2 s1) else none
    else
      pure ((pyRound s : ℤ) : ℚ)
  else
    pure s

/-- Range.__call__: float conversion is the ℚ embedding itself, then
quantization, then (when strict) subrange selection and clamping. -/
def Range.coerce (r : Range) (specimen : ℚ) : Option ℚ := do
  let s ← r.quantize specimen
  if r.strict = true then strictStep r.mins r.maxes s else pure s

/-- Range.get_min: __mins[0]; none models the IndexError on an empty list. -/
def Range.get_min (r : Range) : Option ℚ := r.mins.head?

/-- Range.get_max: __maxes[-1]; none models the IndexError on an empty list. -/
def Range.get_max (r : Range) : Option ℚ := r.maxes.getLast?

/-- Range.shifted_by: translate every subrange by offset; integer
survives only when offset % 1 == 0, i.e. the fractional part of the
offset is zero. -/
def Range.shifted_by (r : Range) (offset : ℚ) : Range :=
  { subranges := r.subranges.map fun p => (p.1 + offset, p.2 + offset),
    strict := r.strict,
    logarithmic := r.logarithmic,
    integer := r.integer && decide (Int.fract offset = 0) }

/-- Range.get_single_point: the sole value when there is exactly one
zero-width subrange, else none. -/
def Range.get_single_point (r : Range) : Option ℚ :=
  if r.mins.length ≠ 1 then none
  else match r.subranges with
    | [] => none
    | p :: _ => if p.1 = p.2 then some p.1 else none

/-- Notice: a free-text display value with a visibility flag. -/
structure Notice where
  always_visible : Bool := false

/-- Notice.type_to_json. -/
def Notice.type_to_json (n : Notice) : JsonV :=
  .obj [("type", .str "notice"), ("always_visible", .bool n.always_visible)]

/-- BulkDataType: describes a paired metadata/array format. -/
structure BulkDataType where
  info_format : String
  array_format : String

/-- BulkDataType.type_to_json. -/
def BulkDataType.type_to_json (b : BulkDataType) : JsonV :=
  .obj [("type", .str "bulk_data"),
        ("info_format", .str b.info_format),
        ("array_format", .str b.array_format)]

/-- The section-3 subrange invariant: a non-empty list (a Range holds one
or more subranges), each min ≤ max, pairwise non-overlapping and sorted
ascending (every earlier subrange ends strictly before a later one begins). -/
def Range.Inv (r : Range) : Prop :=
  r.subranges ≠ [] ∧ (∀ p ∈ r.subranges, p.1 ≤ p.2) ∧
    r.subranges.Pairwise fun p q => p.2 < q.1

instance (r : Range) : Decidable r.Inv := by
  unfold Range.Inv
  infer_instance

/-- A rational that is an integer (the denominator in lowest terms is 1). -/
def isIntegral (q : ℚ) : Prop := q.den = 1

instance (q : ℚ) : Decidable (isIntegral q) := by
  unfold isIntegral
  infer_instance

/-- All subrange endpoints are integers. -/
def Range.integralEndpoints (r : Range) : Prop :=
  ∀ p ∈ r.subranges, isIntegral p.1 ∧ isIntegral p.2

/-- The Range of concrete scenario 1: two integer subranges. -/
def rTwo : Range := { subranges := [(0, 10), (20, 30)], strict := true, logarithmic := false, integer := true }

/-- The Range of concrete scenario 2: a logarithmic power-of-two range. -/
def rLog : Range := { subranges := [(1, 1024)], strict := true, logarithmic := true, integer := true }

/-- A logarithmic Range whose subrange starts at 0: the replacement value
for a non-positive specimen is itself non-positive, so math.log raises. -/
def rLogZero : Range := { subranges := [(0, 10)], strict := true, logarithmic := true, integer := true }

/-- An integer Range with a non-integral lower endpoint: clamping lands
on the endpoint 1/2, which is not an integer. -/
def rHalf : Range := { subranges := [(1 / 2, 10)], strict := true, logarithmic := false, integer := true }

/-- The Range of concrete scenario 5, before shifting. -/
def rShift : Range := { subranges := [(0, 10)], strict := true, logarithmic := false, integer := true }

/-- A concrete strict Enum over strings, as in scenario 3. -/
def eAB : Enum String String :=
  { values := [("a", "Alpha"), ("b", "Beta")], strict := true, base_type := Except.ok }

/-!  Helper lemmas: list access, the bisection loop, and both
quantization primitives.  -/

theorem getD_of_lt {a : List ℚ} {i : ℕ} (h : i < a.length) : a.getD i 0 = a[i] := by
  rw [List.getD_eq_getElem?_getD, List.getElem?_eq_getElem h, Option.getD_some]

theorem pairwise_le_getD_mono {a : List ℚ} (ha : a.Pairwise (· ≤ ·)) {i j : ℕ}
    (hij : i ≤ j) (hj : j < a.length) : a.getD i 0 ≤ a.getD j 0 := by
  rcases Nat.lt_or_ge i j with h | h
  · rw [getD_of_lt (lt_of_le_of_lt hij hj), getD_of_lt hj]
    exact List.pairwise_iff_getElem.mp ha i j (lt_of_le_of_lt hij hj) hj h
  · have hij' : i = j := Nat.le_antisymm hij h
    subst hij'
    exact le_refl _

theorem bisectLoop_between : ∀ (fuel : ℕ) (a : List ℚ) (x : ℚ) (lo hi : ℕ), lo ≤ hi →
    lo ≤ bisectLoop fuel a x lo hi ∧ bisectLoop fuel a x lo hi ≤ hi := by
  intro fuel
  induction fuel with
  | zero =>
    intro a x lo hi h
    exact ⟨Nat.le_refl _, h⟩
  | succ f ih =>
    intro a x lo hi h
    simp only [bisectLoop]
    by_cases hlh : lo < hi
    · rw [if_pos hlh]
      by_cases hx : x < a.getD ((lo + hi) / 2) 0
      · rw [if_pos hx]
        have h2 := ih a x lo ((lo + hi) / 2) (by omega)
        omega
      · rw [if_neg hx]
        have h2 := ih a x ((lo + hi) / 2 + 1) hi (by omega)
        omega
    · rw [if_neg hlh]
      exact ⟨Nat.le_refl _, h⟩

theorem pyBisectRight_le_length (a : List ℚ) (x : ℚ) : pyBisectRight a x ≤ a.length :=
  (bisectLoop_between a.length a x 0 a.length (Nat.zero_le _)).2

theorem bisectLoop_spec {a : List ℚ} (ha : a.Pairwise (· ≤ ·)) (x : ℚ) :
    ∀ (fuel lo hi : ℕ), lo ≤ hi → hi ≤ a.length → hi - lo ≤ fuel →
    (∀ j, j < lo → a.getD j 0 ≤ x) → (∀ j, hi ≤ j → j < a.length → x < a.getD j 0) →
    (∀ j, j < bisectLoop fuel a x lo hi → a.getD j 0 ≤ x) ∧
      (∀ j, bisectLoop fuel a x lo hi ≤ j → j < a.length → x < a.getD j 0) := by
  intro fuel
  induction fuel with
  | zero =>
    intro lo hi hlh hhl hfuel hlow hhigh
    have heq : lo = hi := by omega
    subst heq
    exact ⟨hlow, hhigh⟩
  | succ f ih =>
    intro lo hi hlh hhl hfuel hlow hhigh
    simp only [bisectLoop]
    by_cases hlt : lo < hi
    · rw [if_pos hlt]
      have hmidlt : (lo + hi) / 2 < a.length := by omega
      by_cases hx : x < a.getD ((lo + hi) / 2) 0
      · rw [if_pos hx]
        refine ih lo ((lo + hi) / 2) (by omega) (by omega) (by omega) hlow ?_
        intro j hj hjl
        exact lt_of_lt_of_le hx (pairwise_le_getD_mono ha hj hjl)
      · rw [if_neg hx]
        push_neg at hx
        refine ih ((lo + hi) / 2 + 1) hi (by omega) hhl (by omega) ?_ hhigh
        intro j hj
        exact le_trans (pairwise_le_getD_mono ha (by omega) hmidlt) hx
    · rw [if_neg hlt]
      have heq : lo = hi := by omega
      subst heq
      exact ⟨hlow, hhigh⟩

theorem pyBisectRight_spec {a : List ℚ} (ha : a.Pairwise (· ≤ ·)) (x : ℚ) :
    (∀ j, j < pyBisectRight a x → a.getD j 0 ≤ x) ∧
      (∀ j, pyBisectRight a x ≤ j → j < a.length → x < a.getD j 0) := by
  refine bisectLoop_spec ha x a.length 0 a.length (Nat.zero_le _) (Nat.le_refl _)
    (by omega) ?_ ?_
  · intro j hj
    omega
  · intro j hj hjl
    omega

/-!  Structural facts about a Range's parallel lists and the invariant.  -/

theorem mins_length (r : Range) : r.mins.length = r.subranges.length :=
  List.length_map _ _

theorem maxes_length (r : Range) : r.maxes.length = r.subranges.length :=
  List.length_map _ _

theorem mins_getD {r : Range} {i : ℕ} (h : i < r.subranges.length) :
    r.mins.getD i 0 = (r.subranges[i]).1 := by
  rw [getD_of_lt (by rw [mins_length]; exact h)]
  simp [Range.mins]

theorem maxes_getD {r : Range} {i : ℕ} (h : i < r.subranges.length) :
    r.maxes.getD i 0 = (r.subranges[i]).2 := by
  rw [getD_of_lt (by rw [maxes_length]; exact h)]
  simp [Range.maxes]

theorem Range.Inv.min_le_max {r : Range} (hInv : r.Inv) {i : ℕ}
    (h : i < r.subranges.length) : r.mins.getD i 0 ≤ r.maxes.getD i 0 := by
  rw [mins_getD h, maxes_getD h]
  exact hInv.2.1 _ (r.subranges.getElem_mem h)

theorem Range.Inv.max_lt_min {r : Range} (hInv : r.Inv) {i j : ℕ} (hij : i < j)
    (hj : j < r.subranges.length) : r.maxes.getD i 0 < r.mins.getD j 0 := by
  rw [maxes_getD (lt_trans hij hj), mins_getD hj]
  exact List.pairwise_iff_getElem.mp hInv.2.2 i j (lt_trans hij hj) hj hij

theorem Range.Inv.mins_pairwise {r : Range} (hInv : r.Inv) : r.mins.Pairwise (· ≤ ·) := by
  rw [List.pairwise_iff_getElem]
  intro i j hi hj hij
  have hj' : j < r.subranges.length := by
    rw [mins_length] at hj
    exact hj
  have h1 : r.mins.getD i 0 ≤ r.mins.getD j 0 :=
    le_trans (hInv.min_le_max (lt_trans hij hj')) (le_of_lt (hInv.max_lt_min hij hj'))
  rw [getD_of_lt hi, getD_of_lt hj] at h1
  exact h1

theorem Range.Inv.maxes_pairwise {r : Range} (hInv : r.Inv) : r.maxes.Pairwise (· ≤ ·) := by
  rw [List.pairwise_iff_getElem]
  intro i j hi hj hij
  have hj' : j < r.subranges.length := by
    rw [maxes_length] at hj
    exact hj
  have h1 : r.maxes.getD i 0 ≤ r.maxes.getD j 0 :=
    le_trans (le_of_lt (hInv.max_lt_min hij hj')) (hInv.min_le_max hj')
  rw [getD_of_lt hi, getD_of_lt hj] at h1
  exact h1

/-!  The strict branch: the selected index is always in bounds, the clamp
always succeeds, and a value already inside some subrange is a fixed
point of the whole branch.  -/

theorem bisectIdx_lt {r : Range} (hne : r.subranges ≠ []) (s : ℚ) :
    bisectIdx r.mins s < r.mins.length := by
  have h1 : 0 < r.subranges.length := List.length_pos.mpr hne
  have h2 := pyBisectRight_le_length r.mins s
  have h3 : 0 < r.mins.length := by
    rw [mins_length]
    exact h1
  unfold bisectIdx
  omega

theorem chosenIdx_some {r : Range} (hne : r.subranges ≠ []) (s : ℚ) :
    ∃ i, chosenIdx r.mins r.maxes s = some i ∧ i < r.mins.length := by
  have hlt := bisectIdx_lt hne s
  have hmx : bisectIdx r.mins s < r.maxes.length := by
    rw [maxes_length]
    rw [mins_length] at hlt
    exact hlt
  unfold chosenIdx
  by_cases hg : bisectIdx r.mins s + 1 < r.mins.length
  · rw [if_pos hg]
    rw [List.getElem?_eq_getElem hg, List.getElem?_eq_getElem hmx]
    by_cases hc : r.mins[bisectIdx r.mins s + 1] - s < s - r.maxes[bisectIdx r.mins s]
    · exact ⟨bisectIdx r.mins s + 1, by simp [hc], hg⟩
    · exact ⟨bisectIdx r.mins s, by simp [hc], hlt⟩
  · rw [if_neg hg]
    exact ⟨bisectIdx r.mins s, rfl, hlt⟩

theorem clampTo_some {mins maxes : List ℚ} {i : ℕ} (hi : i < mins.length)
    (hi' : i < maxes.length) (s : ℚ) :
    ∃ y, clampTo mins maxes i s = some y ∧
      (y = s ∨ y = mins.getD i 0 ∨ y = maxes.getD i 0) ∧
      (mins.getD i 0 ≤ maxes.getD i 0 → mins.getD i 0 ≤ y ∧ y ≤ maxes.getD i 0) := by
  rw [getD_of_lt hi, getD_of_lt hi']
  unfold clampTo
  rw [List.getElem?_eq_getElem hi, List.getElem?_eq_getElem hi']
  by_cases h1 : s < mins[i]
  · refine ⟨mins[i], by simp [h1], Or.inr (Or.inl rfl), fun h => ⟨le_refl _, h⟩⟩
  · push_neg at h1
    by_cases h2 : maxes[i] < s
    · refine ⟨maxes[i], by simp [not_lt.mpr h1, h2], Or.inr (Or.inr rfl),
        fun h => ⟨h, le_refl _⟩⟩
    · push_neg at h2
      refine ⟨s, by simp [not_lt.mpr h1, not_lt.mpr h2], Or.inl rfl, fun h => ⟨h1, h2⟩⟩

theorem strictStep_some {r : Range} (hInv : r.Inv) (s : ℚ) :
    ∃ i y, chosenIdx r.mins r.maxes s = some i ∧ i < r.mins.length ∧
      strictStep r.mins r.maxes s = some y ∧
      (y = s ∨ y = r.mins.getD i 0 ∨ y = r.maxes.getD i 0) ∧
      r.mins.getD i 0 ≤ y ∧ y ≤ r.maxes.getD i 0 := by
  obtain ⟨i, hci, hilt⟩ := chosenIdx_some hInv.1 s
  have hisub : i < r.subranges.length := by
    rw [mins_length] at hilt
    exact hilt
  have hi' : i < r.maxes.length := by
    rw [maxes_length]
    exact hisub
  obtain ⟨y, hcl, hmem, hbnd⟩ := clampTo_some hilt hi' s
  have hmm : r.mins.getD i 0 ≤ r.maxes.getD i 0 := hInv.min_le_max hisub
  exact ⟨i, y, hci, hilt, by simp [strictStep, hci, hcl], hmem,
    (hbnd hmm).1, (hbnd hmm).2⟩

theorem strictStep_isSome {r : Range} (hne : r.subranges ≠ []) (s : ℚ) :
    (strictStep r.mins r.maxes s).isSome = true := by
  obtain ⟨i, hci, hilt⟩ := chosenIdx_some hne s
  have hi' : i < r.maxes.length := by
    rw [maxes_length]
    rw [mins_length] at hilt
    exact hilt
  obtain ⟨y, hcl, -, -⟩ := clampTo_some hilt hi' s
  simp [strictStep, hci, hcl]

/-- A value already inside a subrange is left unchanged by the whole
strict branch: bisection finds exactly that subrange, the tie-break does
not advance past it, and the clamp is a no-op. -/
theorem strictStep_fixed {r : Range} (hInv : r.Inv) {i : ℕ} (hi : i < r.mins.length)
    {y : ℚ} (h1 : r.mins.getD i 0 ≤ y) (h2 : y ≤ r.maxes.getD i 0) :
    strictStep r.mins r.maxes y = some y := by
  have hisub : i < r.subranges.length := by
    rw [mins_length] at hi
    exact hi
  have hmx : i < r.maxes.length := by
    rw [maxes_length]
    exact hisub
  have hspec := pyBisectRight_spec hInv.mins_pairwise y
  have hbr1 : i < pyBisectRight r.mins y := by
    by_contra h
    push_neg at h
    have := hspec.2 i h hi
    linarith
  have hbr2 : pyBisectRight r.mins y ≤ i + 1 := by
    by_contra h
    push_neg at h
    have hble := pyBisectRight_le_length r.mins y
    have hj2 : i + 1 < r.mins.length := by omega
    have hle := hspec.1 (i + 1) (by omega)
    have hj2' : i + 1 < r.subranges.length := by
      rw [mins_length] at hj2
      exact hj2
    have hcross : r.maxes.getD i 0 < r.mins.getD (i + 1) 0 :=
      hInv.max_lt_min (Nat.lt_succ_self i) hj2'
    linarith
  have hbi : bisectIdx r.mins y = i := by
    unfold bisectIdx
    omega
  have hci : chosenIdx r.mins r.maxes y = some i := by
    unfold chosenIdx
    rw [hbi]
    by_cases hg : i + 1 < r.mins.length
    · rw [if_pos hg]
      rw [List.getElem?_eq_getElem hg, List.getElem?_eq_getElem hmx]
      have hnext : y < r.mins.getD (i + 1) 0 := hspec.2 (i + 1) (by omega) hg
      have e1 : r.mins.getD (i + 1) 0 = r.mins[i + 1] := getD_of_lt hg
      have e2 : r.maxes.getD i 0 = r.maxes[i] := getD_of_lt hmx
      rw [e1] at hnext
      rw [e2] at h2
      have hcond : ¬ (r.mins[i + 1] - y < y - r.maxes[i]) := by
        push_neg
        linarith
      simp [hcond]
    · rw [if_neg hg]
      rfl
  have hcl : clampTo r.mins r.maxes i y = some y := by
    unfold clampTo
    rw [List.getElem?_eq_getElem hi, List.getElem?_eq_getElem hmx]
    have e1 : r.mins.getD i 0 = r.mins[i] := getD_of_lt hi
    have e2 : r.maxes.getD i 0 = r.maxes[i] := getD_of_lt hmx
    rw [e1] at h1
    rw [e2] at h2
    simp [not_lt.mpr h1, not_lt.mpr h2]
  simp [strictStep, hci, hcl]

/-!  Quantization lemmas.  -/

theorem pyRound_intCast (m : ℤ) : pyRound ((m : ℤ) : ℚ) = m := by
  unfold pyRound
  by_cases h : (0 : ℚ) ≤ (m : ℚ)
  · rw [if_pos h, Int.floor_int_add]
    norm_num
  · rw [if_neg h]
    have e1 : (m : ℚ) - 1 / 2 = -(1 / 2) + (m : ℚ) := by ring
    rw [e1, Int.ceil_add_int]
    have e2 : ⌈(-(1 / 2) : ℚ)⌉ = 0 := by
      rw [Int.ceil_eq_iff]
      constructor <;> norm_num
    rw [e2]
    ring

theorem isIntegral_intCast (m : ℤ) : isIntegral ((m : ℤ) : ℚ) :=
  Rat.den_intCast m

theorem isIntegral_exists {q : ℚ} (h : isIntegral q) : ∃ m : ℤ, q = (m : ℚ) := by
  refine ⟨q.num, ?_⟩
  rw [(Rat.den_eq_one_iff q).mp h]

theorem quantize_of_not_integer {r : Range} (h : r.integer = false) (s : ℚ) :
    r.quantize s = some s := by
  simp [Range.quantize, h]

theorem quantize_int {r : Range} (hi : r.integer = true) (hl : r.logarithmic = false)
    (s : ℚ) : r.quantize s = some ((pyRound s : ℤ) : ℚ) := by
  simp [Range.quantize, hi, hl]

theorem coerce_strict_eq {r : Range} (hs : r.strict = true) {x q : ℚ}
    (hq : r.quantize x = some q) : r.coerce x = strictStep r.mins r.maxes q := by
  simp [Range.coerce, hq, hs]

theorem coerce_nonstrict_eq {r : Range} (hs : r.strict = false) (x : ℚ) :
    r.coerce x = r.quantize x := by
  cases hq : r.quantize x <;> simp [Range.coerce, hq, hs]

theorem coerce_some_elim {r : Range} {x y : ℚ} (h : r.coerce x = some y) :
    ∃ q, r.quantize x = some q ∧
      ((r.strict = true ∧ strictStep r.mins r.maxes q = some y) ∨
        (r.strict = false ∧ q = y)) := by
  cases hq : r.quantize x with
  | none => simp [Range.coerce, hq] at h
  | some q =>
    refine ⟨q, rfl, ?_⟩
    cases hs : r.strict with
    | true =>
      rw [coerce_strict_eq hs hq] at h
      exact Or.inl ⟨rfl, h⟩
    | false =>
      rw [coerce_nonstrict_eq hs, hq] at h
      exact Or.inr ⟨rfl, by injection h⟩

/-!  The logarithmic quantization: roundLog2 is the integer nearest to
log2, characterized squared to stay inside ℚ (n - 1/2 ≤ log2 s < n + 1/2
iff 2 ^ (2n - 1) ≤ s ^ 2 < 2 ^ (2n + 1); equality at the left edge would
need s = 2 ^ (n - 1/2), which no rational attains, so round's tie
handling is immaterial).  -/

theorem roundLog2_spec {s : ℚ} (hs : 0 < s) :
    (2 : ℚ) ^ (2 * roundLog2 s - 1) ≤ s ^ 2 ∧
      s ^ 2 < (2 : ℚ) ^ (2 * roundLog2 s + 1) := by
  have hs2 : (0 : ℚ) < s ^ 2 := by positivity
  have hk1 : ((2 : ℕ) : ℚ) ^ Int.log 2 (s ^ 2) ≤ s ^ 2 :=
    Int.zpow_log_le_self (by norm_num) hs2
  have hk2 : s ^ 2 < ((2 : ℕ) : ℚ) ^ (Int.log 2 (s ^ 2) + 1) :=
    Int.lt_zpow_succ_log_self (by norm_num) _
  have hc : ((2 : ℕ) : ℚ) = (2 : ℚ) := by norm_num
  rw [hc] at hk1 hk2
  have hn : 2 * roundLog2 s - 1 ≤ Int.log 2 (s ^ 2) ∧
      Int.log 2 (s ^ 2) + 1 ≤ 2 * roundLog2 s + 1 := by
    unfold roundLog2
    omega
  constructor
  · exact le_trans (zpow_le_zpow_right₀ (by norm_num) hn.1) hk1
  · exact lt_of_lt_of_le hk2 (zpow_le_zpow_right₀ (by norm_num) hn.2)

theorem roundLog2_unique {s : ℚ} {n : ℤ} (hs : 0 < s)
    (h1 : (2 : ℚ) ^ (2 * n - 1) ≤ s ^ 2) (h2 : s ^ 2 < (2 : ℚ) ^ (2 * n + 1)) :
    roundLog2 s = n := by
  obtain ⟨g1, g2⟩ := roundLog2_spec hs
  by_contra hne
  rcases lt_or_gt_of_ne hne with h | h
  · have hz : (2 : ℚ) ^ (2 * roundLog2 s + 1) ≤ (2 : ℚ) ^ (2 * n - 1) :=
      zpow_le_zpow_right₀ (by norm_num) (by omega)
    linarith
  · have hz : (2 : ℚ) ^ (2 * n + 1) ≤ (2 : ℚ) ^ (2 * roundLog2 s - 1) :=
      zpow_le_zpow_right₀ (by norm_num) (by omega)
    linarith

theorem roundLog2_hundred : roundLog2 100 = 7 := by
  refine roundLog2_unique (by norm_num) ?_ ?_
  · show (2 : ℚ) ^ (2 * 7 - 1 : ℤ) ≤ (100 : ℚ) ^ 2
    norm_num
  · show (100 : ℚ) ^ 2 < (2 : ℚ) ^ (2 * 7 + 1 : ℤ)
    norm_num

theorem roundLog2_one : roundLog2 1 = 0 := by
  refine roundLog2_unique (by norm_num) ?_ ?_
  · show (2 : ℚ) ^ (2 * 0 - 1 : ℤ) ≤ (1 : ℚ) ^ 2
    norm_num
  · show (1 : ℚ) ^ 2 < (2 : ℚ) ^ (2 * 0 + 1 : ℤ)
    norm_num

theorem mins_ne_nil {r : Range} (hne : r.subranges ≠ []) : r.mins ≠ [] := by
  unfold Range.mins
  simpa using hne

theorem quantize_isSome {r : Range} (hInv : r.Inv)
    (hpos : r.integer = true → r.logarithmic = true → 0 < r.mins.headD 0) (s : ℚ) :
    ∃ q, r.quantize s = some q := by
  cases hi : r.integer with
  | false => exact ⟨s, quantize_of_not_integer hi s⟩
  | true =>
    cases hl : r.logarithmic with
    | false => exact ⟨_, quantize_int hi hl s⟩
    | true =>
      have hne : r.mins ≠ [] := mins_ne_nil hInv.1
      obtain ⟨m0, t, hm0⟩ : ∃ m0 t, r.mins = m0 :: t := by
        cases hm : r.mins with
        | nil => exact absurd hm hne
        | cons a t => exact ⟨a, t, rfl⟩
      have hm0' : r.mins.head? = some m0 := by
        rw [hm0]
        rfl
      have hposm : 0 < m0 := by
        have hd : r.mins.headD 0 = m0 := by
          rw [hm0]
          rfl
        rw [← hd]
        exact hpos hi hl
      by_cases hs0 : s ≤ 0
      · exact ⟨(2 : ℚ) ^ roundLog2 m0, by simp [Range.quantize, hi, hl, hs0, hm0', hposm]⟩
      · have hspos : 0 < s := not_le.mp hs0
        exact ⟨(2 : ℚ) ^ roundLog2 s, by simp [Range.quantize, hi, hl, hs0, hspos]⟩

/-!  The claims.  -/

/-- Claim C1 (amended): coercion on a Range meeting the subrange
invariant never fails for numeric input, provided that, when the range
is both integer and logarithmic, the first subrange's minimum is
positive; without that proviso the logarithm's domain check can fail
(see the counterexample). -/
theorem c1_range_coerce_never_fails (r : Range) (hInv : r.Inv)
    (hpos : r.integer = true → r.logarithmic = true → 0 < r.mins.headD 0) (s : ℚ) :
    (r.coerce s).isSome = true := by
  obtain ⟨q, hq⟩ := quantize_isSome hInv hpos s
  cases hs : r.strict with
  | false =>
    rw [coerce_nonstrict_eq hs, hq]
    rfl
  | true =>
    rw [coerce_strict_eq hs hq]
    exact strictStep_isSome hInv.1 q

/-- Claim C1, witness: the amended theorem applied to the logarithmic
Range over [(1, 1024)] at the specimen -3. -/
theorem c1_witness : (rLog.coerce (-3)).isSome = true := by
  refine c1_range_coerce_never_fails rLog ?_ ?_ (-3)
  · refine ⟨by simp [rLog], ?_, ?_⟩
    · intro p hp
      simp [rLog] at hp
      rw [hp]
      norm_num
    · simp [rLog]
  · intro h1 h2
    norm_num [rLog, Range.mins]

/-- Claim C1, counterexample: the Range over [(0, 10)] with strict,
integer and logarithmic all set satisfies the subrange invariant, yet
coercing 0 fails: the non-positive specimen is replaced by the first
subrange's minimum, 0, and the logarithm of 0 raises ValueError. -/
theorem c1_counterexample : rLogZero.Inv ∧ rLogZero.coerce 0 = none := by
  constructor
  · refine ⟨by simp [rLogZero], ?_, ?_⟩
    · intro p hp
      simp [rLogZero] at hp
      rw [hp]
      norm_num
    · simp [rLogZero]
  · simp [Range.coerce, Range.quantize, rLogZero, Range.mins]

/-- Claim C2: the four concrete coercions on Range [(0,10),(20,30)] with
strict and integer set, and the general tie-break rule: selection
advances past the bisection index only when a next subrange exists and
its minimum is strictly closer to the (quantized) specimen than the
current subrange's maximum, so an exact distance tie keeps the earlier
subrange. -/
theorem c2_subrange_selection :
    rTwo.coerce 15 = some 10 ∧ rTwo.coerce 16 = some 20 ∧
      rTwo.coerce (-5) = some 0 ∧ rTwo.coerce 35 = some 30 ∧
      (∀ (r : Range) (q : ℚ),
        (bisectIdx r.mins q + 1 < r.mins.length →
          r.mins.getD (bisectIdx r.mins q + 1) 0 - q =
            q - r.maxes.getD (bisectIdx r.mins q) 0 →
          chosenIdx r.mins r.maxes q = some (bisectIdx r.mins q)) ∧
        (chosenIdx r.mins r.maxes q = some (bisectIdx r.mins q + 1) →
          bisectIdx r.mins q + 1 < r.mins.length ∧
            r.mins.getD (bisectIdx r.mins q + 1) 0 - q <
              q - r.maxes.getD (bisectIdx r.mins q) 0)) := by
  refine ⟨?_, ?_, ?_, ?_, ?_⟩
  · have hq : rTwo.quantize 15 = some 15 := by
      rw [quantize_int rfl rfl]
      norm_num [pyRound]
    rw [coerce_strict_eq rfl hq]
    norm_num [strictStep, chosenIdx, bisectIdx, pyBisectRight, bisectLoop, clampTo,
      Range.mins, Range.maxes, rTwo, Option.bind]
  · have hq : rTwo.quantize 16 = some 16 := by
      rw [quantize_int rfl rfl]
      norm_num [pyRound]
    rw [coerce_strict_eq rfl hq]
    norm_num [strictStep, chosenIdx, bisectIdx, pyBisectRight, bisectLoop, clampTo,
      Range.mins, Range.maxes, rTwo, Option.bind]
  · have hq : rTwo.quantize (-5) = some (-5) := by
      rw [quantize_int rfl rfl]
      have hc : pyRound (-5) = -5 := by
        norm_num [pyRound, Int.ceil_eq_iff]
      rw [hc]
      norm_num
    rw [coerce_strict_eq rfl hq]
    norm_num [strictStep, chosenIdx, bisectIdx, pyBisectRight, bisectLoop, clampTo,
      Range.mins, Range.maxes, rTwo, Option.bind]
  · have hq : rTwo.quantize 35 = some 35 := by
      rw [quantize_int rfl rfl]
      norm_num [pyRound]
    rw [coerce_strict_eq rfl hq]
    norm_num [strictStep, chosenIdx, bisectIdx, pyBisectRight, bisectLoop, clampTo,
      Range.mins, Range.maxes, rTwo, Option.bind]
  · intro r q
    constructor
    · intro hg htie
      have hmx : bisectIdx r.mins q < r.maxes.length := by
        rw [maxes_length]
        rw [mins_length] at hg
        omega
      unfold chosenIdx
      rw [if_pos hg]
      rw [List.getElem?_eq_getElem hg, List.getElem?_eq_getElem hmx]
      rw [getD_of_lt hg, getD_of_lt hmx] at htie
      have hcond : ¬ (r.mins[bisectIdx r.mins q + 1] - q <
          q - r.maxes[bisectIdx r.mins q]) := by
        rw [htie]
        exact lt_irrefl _
      simp [hcond]
    · intro hc
      by_cases hg : bisectIdx r.mins q + 1 < r.mins.length
      · have hmx : bisectIdx r.mins q < r.maxes.length := by
          rw [maxes_length]
          rw [mins_length] at hg
          omega
        unfold chosenIdx at hc
        rw [if_pos hg] at hc
        rw [List.getElem?_eq_getElem hg, List.getElem?_eq_getElem hmx] at hc
        by_cases hcond : r.mins[bisectIdx r.mins q + 1] - q <
            q - r.maxes[bisectIdx r.mins q]
        · rw [getD_of_lt hg, getD_of_lt hmx]
          exact ⟨hg, hcond⟩
        · simp [hcond] at hc
      · unfold chosenIdx at hc
        rw [if_neg hg] at hc
        simp at hc

/-- Claim C6: the logarithmic Range over [(1, 1024)]: 100 snaps to 128,
the power of two nearest in log2, and the non-positive specimen 0 is
replaced by the global minimum 1 before the logarithm, giving 1. -/
theorem c6_logarithmic_snap : rLog.coerce 100 = some 128 ∧ rLog.coerce 0 = some 1 := by
  constructor
  · have hq : rLog.quantize 100 = some 128 := by
      have h100 : ¬ ((100 : ℚ) ≤ 0) := by norm_num
      have hz : (2 : ℚ) ^ roundLog2 100 = 128 := by
        rw [roundLog2_hundred]
        norm_num
      simp [Range.quantize, rLog, h100, hz]
    rw [coerce_strict_eq rfl hq]
    norm_num [strictStep, chosenIdx, bisectIdx, pyBisectRight, bisectLoop, clampTo,
      Range.mins, Range.maxes, rLog, Option.bind]
  · have hq : rLog.quantize 0 = some 1 := by
      have hz : (2 : ℚ) ^ roundLog2 1 = 1 := by
        rw [roundLog2_one]
        norm_num
      simp [Range.quantize, rLog, Range.mins, hz]
    rw [coerce_strict_eq rfl hq]
    norm_num [strictStep, chosenIdx, bisectIdx, pyBisectRight, bisectLoop, clampTo,
      Range.mins, Range.maxes, rLog, Option.bind]

theorem inv_rTwo : rTwo.Inv := by
  refine ⟨by simp [rTwo], ?_, ?_⟩
  · intro p hp
    simp [rTwo] at hp
    rcases hp with hp | hp <;> rw [hp] <;> norm_num
  · simp [rTwo]
    norm_num

theorem coerce_rTwo_fifteen : rTwo.coerce 15 = some 10 := by
  have hq : rTwo.quantize 15 = some 15 := by
    rw [quantize_int rfl rfl]
    norm_num [pyRound]
  rw [coerce_strict_eq rfl hq]
  norm_num [strictStep, chosenIdx, bisectIdx, pyBisectRight, bisectLoop, clampTo,
    Range.mins, Range.maxes, rTwo, Option.bind]

/-- Claim C3: on a strict Range meeting the subrange invariant, every
value coercion returns lies inside the subrange the selection step
chose, and in particular between get_min and get_max. -/
theorem c3_strict_result_in_chosen_subrange (r : Range) (hInv : r.Inv)
    (hs : r.strict = true) (x y : ℚ) (hc : r.coerce x = some y) :
    ∃ q i, r.quantize x = some q ∧ chosenIdx r.mins r.maxes q = some i ∧
      i < r.mins.length ∧ r.mins.getD i 0 ≤ y ∧ y ≤ r.maxes.getD i 0 ∧
      (∀ mn, r.get_min = some mn → mn ≤ y) ∧
      (∀ mx, r.get_max = some mx → y ≤ mx) := by
  obtain ⟨q, hq, hrest⟩ := coerce_some_elim hc
  rcases hrest with ⟨-, hss⟩ | ⟨hsf, -⟩
  · obtain ⟨i, y', hci, hilt, hss', hmem, hb1, hb2⟩ := strictStep_some hInv q
    have hy : y' = y := by
      rw [hss] at hss'
      injection hss' with h
      exact h.symm
    subst hy
    refine ⟨q, i, hq, hci, hilt, hb1, hb2, ?_, ?_⟩
    · intro mn hmn
      have h0 : 0 < r.mins.length := by omega
      rw [Range.get_min, List.head?_eq_getElem?, List.getElem?_eq_getElem h0] at hmn
      injection hmn with h
      rw [← h, ← getD_of_lt h0]
      exact le_trans (pairwise_le_getD_mono hInv.mins_pairwise (Nat.zero_le i) hilt) hb1
    · intro mx hmx
      have hml : r.maxes.length = r.mins.length := by
        rw [maxes_length, mins_length]
      have h0 : r.maxes.length - 1 < r.maxes.length := by omega
      rw [Range.get_max, List.getLast?_eq_getElem?, List.getElem?_eq_getElem h0] at hmx
      injection hmx with h
      rw [← h, ← getD_of_lt h0]
      exact le_trans hb2 (pairwise_le_getD_mono hInv.maxes_pairwise (by omega) h0)
  · rw [hsf] at hs
    exact absurd hs (by simp)

/-- Claim C3, witness: the theorem applied to the strict Range
[(0,10),(20,30)] at specimen 15, whose coercion returns 10. -/
theorem c3_witness : ∃ q i, rTwo.quantize 15 = some q ∧
    chosenIdx rTwo.mins rTwo.maxes q = some i ∧ i < rTwo.mins.length ∧
    rTwo.mins.getD i 0 ≤ 10 ∧ (10 : ℚ) ≤ rTwo.maxes.getD i 0 ∧
    (∀ mn, rTwo.get_min = some mn → mn ≤ 10) ∧
    (∀ mx, rTwo.get_max = some mx → (10 : ℚ) ≤ mx) :=
  c3_strict_result_in_chosen_subrange rTwo inv_rTwo rfl 15 10 coerce_rTwo_fifteen

theorem quantize_fixed {r : Range} (hl : r.integer = true → r.logarithmic = false)
    {y : ℚ} (hy : r.integer = true → isIntegral y) : r.quantize y = some y := by
  cases hi : r.integer with
  | false => exact quantize_of_not_integer hi y
  | true =>
    rw [quantize_int hi (hl hi)]
    obtain ⟨m, hm⟩ := isIntegral_exists (hy hi)
    rw [hm, pyRound_intCast]

theorem integralEndpoints_rTwo : rTwo.integralEndpoints := by
  intro p hp
  simp [rTwo] at hp
  rcases hp with hp | hp <;> rw [hp] <;> constructor <;> simp [isIntegral]

/-- Claim C5 (amended): coercion on a Range meeting the subrange
invariant is idempotent provided that, when the integer flag is set, the
range is not logarithmic and every subrange endpoint is an integer;
without the proviso a clamp onto a non-integral endpoint (or onto a
non-power-of-two endpoint, in the logarithmic case) is re-quantized to a
different value by the second coercion (see the counterexample). -/
theorem c5_coerce_idempotent (r : Range) (hInv : r.Inv)
    (hflags : r.integer = true → r.logarithmic = false ∧ r.integralEndpoints)
    (x y : ℚ) (hc : r.coerce x = some y) : r.coerce y = some y := by
  have hlog : r.integer = true → r.logarithmic = false := fun hi => (hflags hi).1
  obtain ⟨q, hq, hrest⟩ := coerce_some_elim hc
  have hqint : r.integer = true → isIntegral q := by
    intro hi
    have hqx := quantize_int hi (hlog hi) x
    rw [hq] at hqx
    injection hqx with hqe
    rw [hqe]
    exact isIntegral_intCast _
  rcases hrest with ⟨hst, hss⟩ | ⟨hsf, hqy⟩
  · obtain ⟨i, y', hci, hilt, hss', hmem, hb1, hb2⟩ := strictStep_some hInv q
    have hy : y' = y := by
      rw [hss] at hss'
      injection hss' with h
      exact h.symm
    rw [hy] at hmem hb1 hb2
    have hisub : i < r.subranges.length := by
      rw [mins_length] at hilt
      exact hilt
    have hyint : r.integer = true → isIntegral y := by
      intro hi
      rcases hmem with h | h | h
      · rw [h]
        exact hqint hi
      · rw [h, mins_getD hisub]
        exact ((hflags hi).2 _ (r.subranges.getElem_mem hisub)).1
      · rw [h, maxes_getD hisub]
        exact ((hflags hi).2 _ (r.subranges.getElem_mem hisub)).2
    have hq2 : r.quantize y = some y := quantize_fixed hlog hyint
    rw [coerce_strict_eq hst hq2]
    exact strictStep_fixed hInv hilt hb1 hb2
  · subst hqy
    rw [coerce_nonstrict_eq hsf]
    exact quantize_fixed hlog hqint

/-- Claim C5, witness: the amended theorem applied to the integer Range
[(0,10),(20,30)] at specimen 15: since coercing 15 gives 10, coercing 10
again gives 10. -/
theorem c5_witness : rTwo.coerce 10 = some 10 :=
  c5_coerce_idempotent rTwo inv_rTwo
    (fun _ => ⟨rfl, integralEndpoints_rTwo⟩) 15 10 coerce_rTwo_fifteen

/-- Claim C5, counterexample: the integer Range [(1/2, 10)] satisfies
the subrange invariant, yet coercion is not idempotent: 0 rounds to 0
and clamps to the non-integral endpoint 1/2, and coercing 1/2 rounds it
to 1, so coerce (coerce 0) differs from coerce 0. -/
theorem c5_counterexample : rHalf.Inv ∧ rHalf.coerce 0 = some (1 / 2) ∧
    ¬ rHalf.coerce (1 / 2) = some (1 / 2) := by
  refine ⟨?_, ?_, ?_⟩
  · refine ⟨by simp [rHalf], ?_, ?_⟩
    · intro p hp
      simp [rHalf] at hp
      rw [hp]
      norm_num
    · simp [rHalf]
  · have hq : rHalf.quantize 0 = some 0 := by
      rw [quantize_int rfl rfl]
      norm_num [pyRound]
    rw [coerce_strict_eq rfl hq]
    norm_num [strictStep, chosenIdx, bisectIdx, pyBisectRight, bisectLoop, clampTo,
      Range.mins, Range.maxes, rHalf, Option.bind]
  · have hq : rHalf.quantize (1 / 2) = some 1 := by
      rw [quantize_int rfl rfl]
      norm_num [pyRound]
    rw [coerce_strict_eq rfl hq]
    norm_num [strictStep, chosenIdx, bisectIdx, pyBisectRight, bisectLoop, clampTo,
      Range.mins, Range.maxes, rHalf, Option.bind]

/-- Whatever the strict branch returns is either the incoming (already
quantized) specimen or one of the stored endpoints. -/
theorem strictStep_mem {mins maxes : List ℚ} {s y : ℚ}
    (h : strictStep mins maxes s = some y) : y = s ∨ y ∈ mins ∨ y ∈ maxes := by
  unfold strictStep at h
  cases hci : chosenIdx mins maxes s with
  | none =>
    rw [hci] at h
    exact Option.noConfusion h
  | some i =>
    rw [hci] at h
    have h1 : clampTo mins maxes i s = some y := h
    unfold clampTo at h1
    cases hmn : mins[i]? with
    | none =>
      rw [hmn] at h1
      exact Option.noConfusion h1
    | some mn =>
      rw [hmn] at h1
      have h2 : (if s < mn then some mn
          else (maxes[i]?).bind fun mx => some (if mx < s then mx else s)) = some y := h1
      by_cases hc1 : s < mn
      · rw [if_pos hc1] at h2
        injection h2 with h2
        exact Or.inr (Or.inl (h2 ▸ List.getElem?_mem hmn))
      · rw [if_neg hc1] at h2
        cases hmx : maxes[i]? with
        | none =>
          rw [hmx] at h2
          exact Option.noConfusion h2
        | some mx =>
          rw [hmx] at h2
          have h3 : some (if mx < s then mx else s) = some y := h2
          injection h3 with h3
          by_cases hc2 : mx < s
          · rw [if_pos hc2] at h3
            exact Or.inr (Or.inr (h3 ▸ List.getElem?_mem hmx))
          · rw [if_neg hc2] at h3
            exact Or.inl h3.symm

/-- The logarithmic quantization branch only ever produces a power of
two (with an integer, possibly negative, exponent). -/
theorem quantize_log_pow {r : Range} (hi : r.integer = true) (hl : r.logarithmic = true)
    {s q : ℚ} (h : r.quantize s = some q) : ∃ n : ℤ, q = (2 : ℚ) ^ n := by
  unfold Range.quantize at h
  simp only [hi, hl, if_true] at h
  by_cases hs0 : s ≤ 0
  · rw [if_pos hs0] at h
    cases hh : r.mins.head? with
    | none =>
      rw [hh] at h
      exact Option.noConfusion h
    | some m0 =>
      rw [hh] at h
      have h1 : (if 0 < m0 then some ((2 : ℚ) ^ roundLog2 m0) else none) = some q := h
      by_cases hp : 0 < m0
      · rw [if_pos hp] at h1
        injection h1 with h1
        exact ⟨roundLog2 m0, h1.symm⟩
      · rw [if_neg hp] at h1
        exact Option.noConfusion h1
  · rw [if_neg hs0] at h
    have h1 : (if 0 < s then some ((2 : ℚ) ^ roundLog2 s) else none) = some q := h
    by_cases hp : 0 < s
    · rw [if_pos hp] at h1
      injection h1 with h1
      exact ⟨roundLog2 s, h1.symm⟩
    · rw [if_neg hp] at h1
      exact Option.noConfusion h1

/-- Claim C4 (amended): when the integer flag is set, the quantized
value computed before clamping is an integer (non-logarithmic case) or a
power of two with integer exponent (logarithmic case); the value coerce
finally returns is an integer in the non-logarithmic case provided the
range is non-strict or every subrange endpoint is an integer — clamping
onto a non-integral endpoint can make the result non-integral (see the
counterexample).  When the integer flag is clear, quantization passes
the specimen through unchanged. -/
theorem c4_integer_quantization (r : Range) :
    (r.integer = true → r.logarithmic = false →
      (∀ s q, r.quantize s = some q → isIntegral q) ∧
      ((r.strict = false ∨ r.integralEndpoints) →
        ∀ s y, r.coerce s = some y → isIntegral y)) ∧
    (r.integer = true → r.logarithmic = true →
      ∀ s q, r.quantize s = some q → ∃ n : ℤ, q = (2 : ℚ) ^ n) ∧
    (r.integer = false → ∀ s, r.quantize s = some s) := by
  refine ⟨?_, ?_, ?_⟩
  · intro hi hl
    have hquant : ∀ s q, r.quantize s = some q → isIntegral q := by
      intro s q hq
      rw [quantize_int hi hl s] at hq
      injection hq with h
      rw [← h]
      exact isIntegral_intCast _
    refine ⟨hquant, ?_⟩
    intro hcond s y hc
    obtain ⟨q, hq, hrest⟩ := coerce_some_elim hc
    have hqint : isIntegral q := hquant s q hq
    rcases hrest with ⟨hst, hss⟩ | ⟨-, hqy⟩
    · rcases hcond with hns | hep
      · rw [hst] at hns
        exact absurd hns (by simp)
      · rcases strictStep_mem hss with h | h | h
        · rw [h]
          exact hqint
        · obtain ⟨p, hp, hpe⟩ := List.mem_map.mp h
          rw [← hpe]
          exact (hep p hp).1
        · obtain ⟨p, hp, hpe⟩ := List.mem_map.mp h
          rw [← hpe]
          exact (hep p hp).2
    · rw [← hqy]
      exact hqint
  · intro hi hl s q hq
    exact quantize_log_pow hi hl hq
  · intro hi s
    exact quantize_of_not_integer hi s

/-- Claim C4, counterexample: the strict integer Range [(1/2, 10)]
satisfies the subrange invariant, yet coercing 0 returns 1/2, which is
not an integer: the clamp runs after quantization and lands on the
non-integral endpoint. -/
theorem c4_counterexample : rHalf.Inv ∧ rHalf.integer = true ∧
    rHalf.coerce 0 = some (1 / 2) ∧ ¬ isIntegral ((1 : ℚ) / 2) := by
  refine ⟨?_, rfl, ?_, ?_⟩
  · refine ⟨by simp [rHalf], ?_, ?_⟩
    · intro p hp
      simp [rHalf] at hp
      rw [hp]
      norm_num
    · simp [rHalf]
  · have hq : rHalf.quantize 0 = some 0 := by
      rw [quantize_int rfl rfl]
      norm_num [pyRound]
    rw [coerce_strict_eq rfl hq]
    norm_num [strictStep, chosenIdx, bisectIdx, pyBisectRight, bisectLoop, clampTo,
      Range.mins, Range.maxes, rHalf, Option.bind]
  · rw [isIntegral]
    norm_num

/-- Claim C7: shifted_by translates every subrange by the offset,
preserving the number of subranges and the strict and logarithmic flags,
and preserving the integer flag exactly when the offset has zero
fractional part; concretely, shifting [(0, 10)] by 1/2 yields the
subrange (1/2, 21/2) with the integer flag forced off. -/
theorem c7_shifted_by_shape :
    (∀ (r : Range) (o : ℚ),
      (r.shifted_by o).subranges.length = r.subranges.length ∧
      (∀ i : ℕ, (r.shifted_by o).subranges[i]? =
        (r.subranges[i]?).map fun p => (p.1 + o, p.2 + o)) ∧
      (r.shifted_by o).strict = r.strict ∧
      (r.shifted_by o).logarithmic = r.logarithmic ∧
      ((r.shifted_by o).integer = true ↔ r.integer = true ∧ Int.fract o = 0)) ∧
    (rShift.shifted_by (1 / 2)).subranges = [(1 / 2, 21 / 2)] ∧
    (rShift.shifted_by (1 / 2)).integer = false := by
  refine ⟨?_, ?_, ?_⟩
  · intro r o
    refine ⟨by simp [Range.shifted_by], ?_, rfl, rfl, ?_⟩
    · intro i
      simp [Range.shifted_by, List.getElem?_map]
    · simp [Range.shifted_by, Bool.and_eq_true, decide_eq_true_eq]
  · norm_num [Range.shifted_by, rShift]
  · simp only [Range.shifted_by, rShift]
    norm_num [Int.fract]

/-- Claim C8: Enum coercion of a specimen the base type accepts: when
lenient it returns the converted value whether or not it is a member;
when strict it raises the domain violation exactly for non-members and
returns members unchanged. -/
theorem c8_enum_membership (β α : Type) [DecidableEq α] (e : Enum β α) (x : β) (a : α)
    (hconv : e.base_type x = Except.ok a) :
    (e.strict = false → e.coerce x = Except.ok a) ∧
    (e.strict = true →
      (e.coerce x = Except.error CoerceErr.valueError ↔ a ∉ e.values.map Prod.fst) ∧
      (a ∈ e.values.map Prod.fst → e.coerce x = Except.ok a)) := by
  have hco : e.coerce x = if a ∉ e.values.map Prod.fst ∧ e.strict = true then
      Except.error CoerceErr.valueError else Except.ok a := by
    unfold Enum.coerce
    rw [hconv]
    rfl
  constructor
  · intro hs
    rw [hco, if_neg (by simp [hs])]
  · intro hs
    by_cases hm : a ∈ e.values.map Prod.fst
    · have hok : e.coerce x = Except.ok a := by
        rw [hco, if_neg (by simp [hm])]
      refine ⟨⟨fun he => ?_, fun hnm => absurd hm hnm⟩, fun _ => hok⟩
      rw [hok] at he
      exact Except.noConfusion he
    · have herr : e.coerce x = Except.error CoerceErr.valueError := by
        rw [hco, if_pos ⟨hm, hs⟩]
      exact ⟨⟨fun _ => hm, fun _ => herr⟩, fun hmem => absurd hmem hm⟩

/-- Claim C8, witness: the strict Enum with keys a and b rejects the
non-member c with the domain violation. -/
theorem c8_witness : eAB.coerce "c" = Except.error CoerceErr.valueError := by
  have h := c8_enum_membership String String eAB "c" "c" rfl
  refine ((h.2 rfl).1).mpr ?_
  simp [eAB]

/-- Claim C9 (amended): for constant, enum, range, notice and bulk_data
the emitted schema is an object carrying exactly the type discriminator
and the variant's listed fields; the boolean primitive wrapper instead
returns the bare tag string (not an object with a type field — see the
counterexample). -/
theorem c9_describe_schema :
    (∀ (α : Type) (toJ : α → JsonV) (c : Constant α),
      (Constant.type_to_json toJ c).fieldNames = some ["type", "value"] ∧
      (Constant.type_to_json toJ c).lookupField "type" = some (.str "constant") ∧
      (Constant.type_to_json toJ c).lookupField "value" = some (toJ c.value)) ∧
    (∀ (β : Type) (e : Enum β String),
      e.type_to_json.fieldNames = some ["type", "values"] ∧
      e.type_to_json.lookupField "type" = some (.str "enum") ∧
      e.type_to_json.lookupField "values" =
        some (.obj (e.values.map fun p => (p.1, .str p.2)))) ∧
    (∀ r : Range,
      r.type_to_json.fieldNames = some ["type", "subranges", "logarithmic", "integer"] ∧
      r.type_to_json.lookupField "type" = some (.str "range") ∧
      r.type_to_json.lookupField "subranges" =
        some (.arr (r.subranges.map fun p => .arr [.num p.1, .num p.2])) ∧
      r.type_to_json.lookupField "logarithmic" = some (.bool r.logarithmic) ∧
      r.type_to_json.lookupField "integer" = some (.bool r.integer)) ∧
    (∀ n : Notice,
      n.type_to_json.fieldNames = some ["type", "always_visible"] ∧
      n.type_to_json.lookupField "type" = some (.str "notice") ∧
      n.type_to_json.lookupField "always_visible" = some (.bool n.always_visible)) ∧
    (∀ b : BulkDataType,
      b.type_to_json.fieldNames = some ["type", "info_format", "array_format"] ∧
      b.type_to_json.lookupField "type" = some (.str "bulk_data") ∧
      b.type_to_json.lookupField "info_format" = some (.str b.info_format) ∧
      b.type_to_json.lookupField "array_format" = some (.str b.array_format)) ∧
    BareType.type_to_json { python_type := PyType.bool } = .str "boolean" := by
  refine ⟨fun α toJ c => ⟨rfl, rfl, rfl⟩, fun β e => ⟨rfl, rfl, rfl⟩,
    fun r => ⟨rfl, rfl, rfl, rfl, rfl⟩, fun n => ⟨rfl, rfl, rfl⟩,
    fun b => ⟨rfl, rfl, rfl, rfl⟩, rfl⟩

/-- Claim C9, counterexample: the boolean wrapper's schema is the bare
string tag, not an object, so it has no type discriminator field. -/
theorem c9_counterexample :
    (BareType.type_to_json { python_type := PyType.bool }).fieldNames = none ∧
    BareType.type_to_json { python_type := PyType.bool } = JsonV.str "boolean" :=
  ⟨rfl, rfl⟩

/-- Claim C10: for a Range built from a non-empty subrange list the
index the strict branch computes is always in bounds and every list
access (the tie-break lookahead and the clamp) succeeds; for an empty
subrange list, strict coercion and get_min and get_max all fail. -/
theorem c10_strict_index_bounds (r : Range) :
    (r.subranges ≠ [] → ∀ s : ℚ,
      bisectIdx r.mins s < r.mins.length ∧
      ∃ i, chosenIdx r.mins r.maxes s = some i ∧ i < r.mins.length ∧
        (clampTo r.mins r.maxes i s).isSome = true) ∧
    (r.subranges = [] → (r.strict = true → ∀ s, r.coerce s = none) ∧
      r.get_min = none ∧ r.get_max = none) := by
  constructor
  · intro hne s
    refine ⟨bisectIdx_lt hne s, ?_⟩
    obtain ⟨i, hci, hilt⟩ := chosenIdx_some hne s
    have hi' : i < r.maxes.length := by
      rw [maxes_length]
      rw [mins_length] at hilt
      exact hilt
    obtain ⟨y, hcl, -, -⟩ := clampTo_some hilt hi' s
    exact ⟨i, hci, hilt, by simp [hcl]⟩
  · intro hemp
    have hm : r.mins = [] := by simp [Range.mins, hemp]
    have hx : r.maxes = [] := by simp [Range.maxes, hemp]
    refine ⟨?_, ?_, ?_⟩
    · intro hs s
      cases hq : r.quantize s with
      | none => simp [Range.coerce, hq]
      | some q =>
        rw [coerce_strict_eq hs hq, hm, hx]
        rfl
    · simp [Range.get_min, hm]
    · simp [Range.get_max, hx]

end ShinySDR
